import Mathlib

/-!
Shallow embedding of the execution and comparison core of the `sql_runner`
service (crate `sql_runner` of thm-mni-ii/assa).

Modelling conventions:
* Rust `i64` payloads are modelled as `Int` (no arithmetic is performed on
  them by the modelled code, only comparisons, so no wrap-around is needed).
* Rust `f64` is modelled by its 64-bit IEEE-754 pattern (`F64.bits : Nat`);
  IEEE equality and `partial_cmp` are defined from the pattern: NaN detection
  from exponent/fraction bits, and for non-NaN values an order key that is
  monotone in the numeric value and identifies `+0.0` with `-0.0`.
* Rust `String` ordering (`str::cmp`, byte-wise lexicographic over UTF-8) is
  modelled as code-point-wise lexicographic comparison of the character list,
  which coincides with byte order by the design of UTF-8.
* A Rust panic (`unwrap` on `None`, slice index out of bounds) is modelled by
  returning `none` from the corresponding `Option`-valued function.
-/

/-- Three-way comparison of integers, the model of `Ord::cmp` on numeric
payloads. -/
def cmpInt (a b : Int) : Ordering :=
  if a < b then .lt else if b < a then .gt else .eq

/-- An IEEE-754 binary64 value, represented by its 64-bit pattern. -/
structure F64 where
  bits : Nat
deriving DecidableEq, Repr

/-- Exponent field (11 bits) of a binary64 pattern. -/
def F64.exponent (x : F64) : Nat := x.bits / 2 ^ 52 % 2 ^ 11

/-- Fraction field (52 bits) of a binary64 pattern. -/
def F64.fraction (x : F64) : Nat := x.bits % 2 ^ 52

/-- NaN test: exponent all ones and non-zero fraction. -/
def F64.isNaN (x : F64) : Bool := x.exponent == 2 ^ 11 - 1 && x.fraction != 0

/-- Order key of a non-NaN binary64 pattern: positive patterns (sign bit 0)
are ordered by the pattern itself, negative ones reversed; `+0.0` and `-0.0`
both map to key `0`.  On non-NaN patterns this key is monotone in the numeric
value and identifies exactly the numerically equal values. -/
def F64.key (x : F64) : Int :=
  if x.bits < 2 ^ 63 then (x.bits : Int) else -((x.bits : Int) - 2 ^ 63)

/-- Model of Rust `f64::eq` (IEEE equality): false if either side is NaN,
otherwise numeric equality. -/
def f64Beq (x y : F64) : Bool := !x.isNaN && !y.isNaN && F64.key x == F64.key y

/-- Model of Rust `f64::partial_cmp`: `None` if either side is NaN, otherwise
the numeric comparison. -/
def f64PCmp (x y : F64) : Option Ordering :=
  if x.isNaN || y.isNaN then none else some (cmpInt x.key y.key)

/-- Model of `SqlValue` (src/sql_runner/src/db/types.rs). -/
inductive SqlValue where
  | Bool (b : Bool)
  | Int (i : Int)
  | Float (f : F64)
  | Text (s : String)
deriving DecidableEq, Repr

/-- Variant rank used by the derived `PartialOrd` when the two sides are
different variants (Rust orders enum variants by declaration order). -/
def sqlRank : SqlValue → Int
  | .Bool _ => 0
  | .Int _ => 1
  | .Float _ => 2
  | .Text _ => 3

/-- Model of `bool::cmp` (`false < true`). -/
def cmpBool (a b : Bool) : Ordering := cmpInt (cond a 1 0) (cond b 1 0)

/-- Model of `char`/byte comparison via the code point. -/
def cmpChar (a b : Char) : Ordering := cmpInt a.toNat b.toNat

/-- Lexicographic comparison of character lists; the model of `str::cmp`. -/
def cmpCharList : List Char → List Char → Ordering
  | [], [] => .eq
  | [], _ :: _ => .lt
  | _ :: _, [] => .gt
  | a :: as, b :: bs =>
    if cmpChar a b = .eq then cmpCharList as bs else cmpChar a b

/-- Model of the derived `PartialEq` on `SqlValue`: same variant and equal
payload, where `Float` payloads use IEEE equality. -/
def sqlBeq : SqlValue → SqlValue → Bool
  | .Bool a, .Bool b => a == b
  | .Int a, .Int b => a == b
  | .Float a, .Float b => f64Beq a b
  | .Text a, .Text b => a == b
  | _, _ => false

/-- Model of the derived `PartialOrd::partial_cmp` on `SqlValue`: payload
comparison within a variant, variant-rank comparison across variants. -/
def sqlPCmp : SqlValue → SqlValue → Option Ordering
  | .Bool a, .Bool b => some (cmpBool a b)
  | .Int a, .Int b => some (cmpInt a b)
  | .Float a, .Float b => f64PCmp a b
  | .Text a, .Text b => some (cmpCharList a.data b.data)
  | a, b => some (cmpInt (sqlRank a) (sqlRank b))

/-- Model of the derived `PartialEq` on `Vec<SqlValue>` (a row). -/
def rowBeq : List SqlValue → List SqlValue → Bool
  | [], [] => true
  | a :: as, b :: bs => sqlBeq a b && rowBeq as bs
  | _, _ => false

/-- Model of the derived `PartialOrd::partial_cmp` on `Vec<SqlValue>`:
lexicographic over the common length, then length comparison; `None` as soon
as an undecided position compares to `None`. -/
def rowPCmp : List SqlValue → List SqlValue → Option Ordering
  | [], [] => some .eq
  | [], _ :: _ => some .lt
  | _ :: _, [] => some .gt
  | a :: as, b :: bs =>
    if sqlPCmp a b = some .eq then rowPCmp as bs else sqlPCmp a b

/-- Model of `ResultSet` (src/sql_runner/src/db/types.rs). -/
structure ResultSet where
  columns : List String
  rows : List (List SqlValue)
deriving DecidableEq, Repr

/-- Model of the derived `PartialEq` on `Vec<Vec<SqlValue>>`. -/
def rowsBeq : List (List SqlValue) → List (List SqlValue) → Bool
  | [], [] => true
  | a :: as, b :: bs => rowBeq a b && rowsBeq as bs
  | _, _ => false

/-- Model of the derived `PartialEq` on `ResultSet`: column names equal and
rows equal cell-by-cell. -/
def resultSetBeq (a b : ResultSet) : Bool :=
  a.columns == b.columns && rowsBeq a.rows b.rows

/-- Stable insertion of `x` in front of the first element `y` with
`le x y = true`. -/
def stableInsert (le : α → α → Bool) (x : α) : List α → List α
  | [] => [x]
  | y :: ys => if le x y then x :: y :: ys else y :: stableInsert le x ys

/-- Stable insertion sort; the model of Rust's stable `slice::sort_by`: on a
list whose elements are pairwise comparable under the total preorder decided
by `le`, the stable sorted order is unique, so any stable sort — Rust's merge
sort as well as this insertion sort — produces it. -/
def stableSort (le : α → α → Bool) : List α → List α
  | [] => []
  | x :: xs => stableInsert le x (stableSort le xs)

/-- Comparator used by `sort_by` in `ResultSet::sort_columns`: stable order of
the enumerated columns by name only. -/
def leName (x y : Nat × String) : Bool := !(cmpCharList x.2.data y.2.data == .gt)

/-- Enumeration of the column list with indices starting at `k` (the
`iter().enumerate()` of `ResultSet::sort_columns`). -/
def indexedFrom (k : Nat) : List String → List (Nat × String)
  | [] => []
  | s :: rest => (k, s) :: indexedFrom (k + 1) rest

/-- Model of the inner loop of `ResultSet::sort_columns` on one row:
`new_row[i] = row[perm[i]]` for `i < perm.length`, keeping the cells beyond
`perm.length` from the original row; `none` models the index-out-of-bounds
panic when the row is shorter than the column list. -/
def permuteRow (perm : List Nat) (row : List SqlValue) : Option (List SqlValue) :=
  if perm.length ≤ row.length && perm.all fun j => j < row.length then
    some ((perm.map fun j => row.getD j (.Bool false)) ++ row.drop perm.length)
  else
    none

/-- Permutation pass of `ResultSet::sort_columns` over all rows; the first
modelled panic aborts the whole transform. -/
def permuteRows (perm : List Nat) : List (List SqlValue) → Option (List (List SqlValue))
  | [] => some []
  | row :: rest =>
    match permuteRow perm row with
    | none => none
    | some r =>
      match permuteRows perm rest with
      | none => none
      | some rs => some (r :: rs)

/-- Model of `ResultSet::sort_columns`: stable-sort the enumerated columns by
name, then apply the index permutation to every row. -/
def sortColumns (r : ResultSet) : Option ResultSet :=
  let indexed := stableSort leName (indexedFrom 0 r.columns)
  let perm := indexed.map Prod.fst
  match permuteRows perm r.rows with
  | some rows => some { columns := indexed.map Prod.snd, rows := rows }
  | none => none

/-- Model of `ResultSet::number_columns`: replace every column name by its
zero-based ordinal rendered in decimal; rows untouched. -/
def numberColumns (r : ResultSet) : ResultSet :=
  { r with columns := (List.range r.columns.length).map toString }

/-- Comparator used by `sort_by` in `ResultSet::sort_rows`
(`a.partial_cmp(b).unwrap()` read as a `≤` test); when the comparison is
undefined the surrounding sort is modelled as failing, see `sortRows`. -/
def leRow (a b : List SqlValue) : Bool := !(rowPCmp a b == some .gt)

/-- All distinct positions of the list hold pairwise comparable rows; exactly
when this fails, some comparator call of the sort hits `None` and the
`unwrap` in `ResultSet::sort_rows` panics. -/
def comparableRows : List (List SqlValue) → Bool
  | [] => true
  | x :: xs => (xs.all fun y => (rowPCmp x y).isSome) && comparableRows xs

/-- Model of `ResultSet::sort_rows`: `none` models the `unwrap` panic on an
incomparable pair of rows, otherwise the stable sort of the rows. -/
def sortRows (r : ResultSet) : Option ResultSet :=
  if comparableRows r.rows then some { r with rows := stableSort leRow r.rows }
  else none

/-- Model of `SqlExecutionError` (src/sql_runner/src/db/mod.rs); the wrapped
`sqlx::Error` values are modelled by their rendered message. -/
inductive SqlExecutionError where
  | Init (msg : String)
  | Execute (msg : String)
  | Other (msg : String)
  | ColumnDecodeError (column : String)
deriving DecidableEq, Repr

/-- Body of the error response (`RunError` in src/sql_runner/src/routes.rs). -/
structure RunError where
  location : String
  error : String
deriving DecidableEq, Repr

/-- Model of `err_to_response` (src/sql_runner/src/routes.rs): HTTP status
code paired with the error body.  `Init` and `Execute` surface the wrapped
driver message with status 200; the catch-all arm (`Other` and
`ColumnDecodeError`) answers 500 with a fixed generic body. -/
def errToResponse : SqlExecutionError → Nat × RunError
  | .Init e => (200, { location := "init", error := e })
  | .Execute e => (200, { location := "query", error := e })
  | .Other _ => (500, { location := "other", error := "an internal error occurred" })
  | .ColumnDecodeError _ => (500, { location := "other", error := "an internal error occurred" })

/-- Rust `sqlx::types::Decimal` at the decoder boundary: the code observes a
decimal only through `TryInto<f64>`, so the model carries just that outcome
(`none` when the magnitude is not representable as binary64). -/
structure DecimalVal where
  toF64Bits : Option F64
deriving DecidableEq, Repr

/-- A driver-level cell as observed through the typed probes
`row.try_get::<T, _>(name)` of `DB::extract`: for each probed type, the value
the probe would decode to, or `none` when that probe fails.  `asF32` carries
the value already widened losslessly to binary64 (the code widens with
`f32::into`); `asDateTime`/`asDate` carry the `to_string` rendering. -/
structure DriverCell where
  asString : Option String
  asDecimal : Option DecimalVal
  asF64 : Option F64
  asF32 : Option F64
  asI64 : Option Int
  asI32 : Option Int
  asBool : Option Bool
  asDateTime : Option String
  asDate : Option String
deriving DecidableEq, Repr

/-- Model of the per-column if-else probe chain of `DB::extract`
(src/sql_runner/src/db/mod.rs lines 268-293). -/
def decodeCell (name : String) (c : DriverCell) : Except SqlExecutionError SqlValue :=
  match c.asString with
  | some s => .ok (.Text s)
  | none =>
    match c.asDecimal with
    | some d =>
      match d.toF64Bits with
      | some f => .ok (.Float f)
      | none => .error (.ColumnDecodeError name)
    | none =>
      match c.asF64 with
      | some f => .ok (.Float f)
      | none =>
        match c.asF32 with
        | some f => .ok (.Float f)
        | none =>
          match c.asI64 with
          | some i => .ok (.Int i)
          | none =>
            match c.asI32 with
            | some i => .ok (.Int i)
            | none =>
              match c.asBool with
              | some b => .ok (.Bool b)
              | none =>
                match c.asDateTime with
                | some t => .ok (.Text t)
                | none =>
                  match c.asDate with
                  | some t => .ok (.Text t)
                  | none => .error (.ColumnDecodeError name)

/-- Specification-side rendering of the decode order of §4.1 of the spec: the
ordered list of probes, each yielding `none` when its driver decode fails. -/
def probeChain (name : String) : List (DriverCell → Option (Except SqlExecutionError SqlValue)) :=
  [ fun c => c.asString.map fun s => .ok (.Text s),
    fun c => c.asDecimal.map fun d =>
      match d.toF64Bits with
      | some f => .ok (.Float f)
      | none => .error (.ColumnDecodeError name),
    fun c => c.asF64.map fun f => .ok (.Float f),
    fun c => c.asF32.map fun f => .ok (.Float f),
    fun c => c.asI64.map fun i => .ok (.Int i),
    fun c => c.asI32.map fun i => .ok (.Int i),
    fun c => c.asBool.map fun b => .ok (.Bool b),
    fun c => c.asDateTime.map fun t => .ok (.Text t),
    fun c => c.asDate.map fun t => .ok (.Text t) ]

/-- Specification-side decoder: first successful probe of the chain wins; a
cell matched by no probe fails with `ColumnDecode(column_name)`. -/
def decodeSpec (name : String) (c : DriverCell) : Except SqlExecutionError SqlValue :=
  ((probeChain name).findSome? fun p => p c).getD (.error (.ColumnDecodeError name))

/-- A driver-level row: each column name paired with its cell. -/
abbrev DriverRow := List (String × DriverCell)

/-- Decode every cell of a row, in column order, the first failure aborting
(the `?` operator inside the row loop of `DB::extract`). -/
def decodeRow : DriverRow → Except SqlExecutionError (List SqlValue)
  | [] => .ok []
  | (n, c) :: rest =>
    match decodeCell n c with
    | .error e => .error e
    | .ok v =>
      match decodeRow rest with
      | .error e => .error e
      | .ok vs => .ok (v :: vs)

/-- Decode every taken row, in stream order, the first failure aborting. -/
def decodeRows : List DriverRow → Except SqlExecutionError (List (List SqlValue))
  | [] => .ok []
  | row :: rest =>
    match decodeRow row with
    | .error e => .error e
    | .ok v =>
      match decodeRows rest with
      | .error e => .error e
      | .ok vs => .ok (v :: vs)

/-- Model of `try_collect` on the truncated stream: the first driver error
becomes `Execute(err)`. -/
def collectRows : List (Except String DriverRow) → Except SqlExecutionError (List DriverRow)
  | [] => .ok []
  | .error e :: _ => .error (.Execute e)
  | .ok row :: rest =>
    match collectRows rest with
    | .error e => .error e
    | .ok rows => .ok (row :: rows)

/-- Model of `DB::extract`: the row stream is a list of driver outcomes
(`Except String DriverRow`, an error modelling a failed `PgRow` fetch).  The
stream is truncated to `max_rows_in_result_set` rows first; a driver error
among the taken rows fails with `Execute`; column names come from the first
row; every taken row is decoded; an empty stream yields the empty result. -/
def extract (maxRows : Nat) (stream : List (Except String DriverRow)) :
    Except SqlExecutionError ResultSet :=
  match collectRows (stream.take maxRows) with
  | .error e => .error e
  | .ok rows =>
    match rows with
    | [] => .ok { columns := [], rows := [] }
    | first :: _ =>
      match decodeRows rows with
      | .error e => .error e
      | .ok decoded => .ok { columns := first.map Prod.fst, rows := decoded }

/-- State of the connection registry of `DB`: the cache association list
(`HashMap` insert modelled by consing, lookup by first match) and the number
of pools opened so far, which also serves as the next pool id. -/
structure RegState where
  cache : List (String × Nat)
  opened : Nat
deriving DecidableEq, Repr

/-- Model of `DB::get_connection` (src/sql_runner/src/db/mod.rs lines
214-242), faithful to the source keys: the cache lookup uses the key
`"{username}@{db}"`, while the insertion after opening a new pool uses the
key `db` alone (followed by a lookup of `db`, which returns the pool just
inserted).  The returned `Nat` is the pool handed back to the caller. -/
def getConnection (st : RegState) (db username : String) : RegState × Nat :=
  match st.cache.lookup (username ++ "@" ++ db) with
  | some pool => (st, pool)
  | none =>
    let pool := st.opened
    ({ cache := (db, pool) :: st.cache, opened := pool + 1 }, pool)

/-- Model of `RowNormalisation` (src/sql_runner/src/db/mod.rs). -/
inductive RowNormalisation where
  | NoNormalization
  | SortRows
deriving DecidableEq, Repr

/-- Model of `ColumnNormalisation` (src/sql_runner/src/db/mod.rs). -/
inductive ColumnNormalisation where
  | NoNormalization
  | SortColumnsByName
  | NumberColumnsByOrder
deriving DecidableEq, Repr

/-- Normalization pass of `DB::compare`: the column normalization applied
before the row normalization; `none` propagates a modelled panic. -/
def applyNorms (rn : RowNormalisation) (cn : ColumnNormalisation) (r : ResultSet) :
    Option ResultSet := do
  let r1 ←
    match cn with
    | .NoNormalization => some r
    | .SortColumnsByName => sortColumns r
    | .NumberColumnsByOrder => some (numberColumns r)
  match rn with
  | .NoNormalization => some r1
  | .SortRows => sortRows r1

/-- Model of `DB::compare` over an execution oracle `exec` mapping
`(environment, query)` to the extracted result set (the claim under study
quantifies over requests whose executions succeed, so the oracle is total):
execute both queries, normalize both, and test equality with the derived
`PartialEq` of `ResultSet`. -/
def compareQueries (exec : String → String → ResultSet) (env qa qb : String)
    (rn : RowNormalisation) (cn : ColumnNormalisation) :
    Option (ResultSet × ResultSet × Bool) := do
  let a ← applyNorms rn cn (exec env qa)
  let b ← applyNorms rn cn (exec env qb)
  some (a, b, resultSetBeq a b)

/-- Model of one entry of `BatchCompareRequest.solutions`. -/
structure Solution where
  query : String
  row_normalisation : RowNormalisation
  column_normalisation : ColumnNormalisation
  return_result_set : Bool
deriving DecidableEq, Repr

/-- Model of `SolutionResponse` (src/sql_runner/src/routes.rs). -/
structure SolutionResponse where
  eq : Bool
  result_set : Option ResultSet
deriving DecidableEq, Repr

/-- Model of `BatchCompareResponse` (src/sql_runner/src/routes.rs). -/
structure BatchCompareResponse where
  solutions : List SolutionResponse
  submission_result_set : Option ResultSet
deriving DecidableEq, Repr

/-- One completed comparison of `batch_compare_result_sets`: the route calls
`DB::compare(env, solution_query, submission, ...)` whose tuple is
`(a, b, eq) = (solution result, submission result, eq)`; the `inspect`
closure fills the `submission_result_set` once-cell from `a`, and the
per-solution `result_set` field is `b` when `return_result_set` is set. -/
def batchStep (exec : String → String → ResultSet) (env submission : String)
    (st : List SolutionResponse × Option ResultSet) (sol : Solution) :
    Option (List SolutionResponse × Option ResultSet) := do
  let (a, b, eq) ← compareQueries exec env sol.query submission
    sol.row_normalisation sol.column_normalisation
  let cell := match st.2 with
    | some rs => some rs
    | none => some a
  some (st.1 ++ [{ eq := eq, result_set := if sol.return_result_set then some b else none }], cell)

/-- Model of `batch_compare_result_sets` (src/sql_runner/src/routes.rs lines
164-209) with completions taken in request order (one admissible completion
order of `join_all`; for the properties under study the order only selects
which comparison fills the once-cell first). -/
def batchCompare (exec : String → String → ResultSet) (env : String)
    (solutions : List Solution) (submission : String) : Option BatchCompareResponse := do
  let st ← solutions.foldlM (batchStep exec env submission) ([], none)
  some { solutions := st.1, submission_result_set := st.2 }

/-- Program counter of one task attempting provisioning for a fixed identity
(the control flow of `DB::execute` through `DB::create_db`). -/
inductive PC where
  | start
  | waitLock
  | locked
  | creating
  | unlocking
  | done
deriving DecidableEq, Repr

/-- Global state of `n` concurrent provisioning attempts for one identity:
whether the database exists in the RDBMS, how many `CREATE DATABASE`
statements have been issued, the holder of `create_db_mutex`, and each task's
program counter. -/
structure ProvState where
  dbExists : Bool
  creates : Nat
  lockHeld : Option Nat
  tasks : Nat → PC

/-- Initial state: the database absent, no creation issued, the mutex free,
every task before its fast-path existence check. -/
def provInit : ProvState :=
  { dbExists := false, creates := 0, lockHeld := none, tasks := fun _ => .start }

/-- Interleaving semantics of the provisioning code for `n` tasks.  Each
constructor is one atomic database or mutex interaction of `DB::execute` /
`DB::create_db`: the fast-path `db_exists` check, acquiring
`create_db_mutex` (only when free), the re-check inside the critical
section, issuing `CREATE DATABASE` (the `create_database_and_user` sequence),
and releasing the mutex.  No step other than `acquire` consults the lock:
mutual exclusion is proved, not assumed. -/
inductive ProvStep (n : Nat) : ProvState → ProvState → Prop where
  | fastHit (s : ProvState) (i : Nat) (hi : i < n) (hpc : s.tasks i = .start)
      (hdb : s.dbExists = true) :
      ProvStep n s { s with tasks := Function.update s.tasks i .done }
  | fastMiss (s : ProvState) (i : Nat) (hi : i < n) (hpc : s.tasks i = .start)
      (hdb : s.dbExists = false) :
      ProvStep n s { s with tasks := Function.update s.tasks i .waitLock }
  | acquire (s : ProvState) (i : Nat) (hi : i < n) (hpc : s.tasks i = .waitLock)
      (hlock : s.lockHeld = none) :
      ProvStep n s { s with lockHeld := some i, tasks := Function.update s.tasks i .locked }
  | recheckHit (s : ProvState) (i : Nat) (hi : i < n) (hpc : s.tasks i = .locked)
      (hdb : s.dbExists = true) :
      ProvStep n s { s with tasks := Function.update s.tasks i .unlocking }
  | recheckMiss (s : ProvState) (i : Nat) (hi : i < n) (hpc : s.tasks i = .locked)
      (hdb : s.dbExists = false) :
      ProvStep n s { s with tasks := Function.update s.tasks i .creating }
  | create (s : ProvState) (i : Nat) (hi : i < n) (hpc : s.tasks i = .creating) :
      ProvStep n s { s with dbExists := true, creates := s.creates + 1, tasks := Function.update s.tasks i .unlocking }
  | release (s : ProvState) (i : Nat) (hi : i < n) (hpc : s.tasks i = .unlocking) :
      ProvStep n s { s with lockHeld := none, tasks := Function.update s.tasks i .done }

/-- Reachability under the interleaving semantics. -/
def ProvReach (n : Nat) : ProvState → ProvState → Prop :=
  Relation.ReflTransGen (ProvStep n)

/-- Driver cell holding only a 64-bit integer value (all other probes fail). -/
def cellOfI64 (i : Int) : DriverCell :=
  { asString := none, asDecimal := none, asF64 := none, asF32 := none,
    asI64 := some i, asI32 := none, asBool := none, asDateTime := none, asDate := none }

/-- Result set produced by the demo solution query. -/
def rsSolutionDemo : ResultSet := { columns := ["a"], rows := [[.Int 1]] }

/-- Result set produced by the demo submission query. -/
def rsSubmissionDemo : ResultSet := { columns := ["a"], rows := [[.Int 2]] }

/-- Execution oracle of the batch-compare demo: the solution query `"s1"`
yields `rsSolutionDemo`, anything else yields `rsSubmissionDemo`. -/
def execDemo : String → String → ResultSet :=
  fun _ q => if q = "s1" then rsSolutionDemo else rsSubmissionDemo

/-- Demo batch solution: query `"s1"`, no normalization, result set requested. -/
def solutionDemo : Solution :=
  { query := "s1", row_normalisation := .NoNormalization,
    column_normalisation := .NoNormalization, return_result_set := true }

/-- Critical program counters: those a task can only hold while it owns
`create_db_mutex`. -/
def critPC (p : PC) : Prop := p = .locked ∨ p = .creating ∨ p = .unlocking

/-- Inductive invariant of the provisioning machine: at most one creation,
the database exists exactly when one creation happened, every task in the
critical section is the registered lock holder, a task about to create has
just observed the database absent, a task about to unlock has observed or
caused its presence, and a finished task implies the creation happened. -/
def ProvInv (n : Nat) (s : ProvState) : Prop :=
  s.creates ≤ 1 ∧
  (s.dbExists = true ↔ s.creates = 1) ∧
  (∀ i, i < n → critPC (s.tasks i) → s.lockHeld = some i) ∧
  (∀ i, i < n → s.tasks i = .creating → s.dbExists = false) ∧
  (∀ i, i < n → s.tasks i = .unlocking → s.dbExists = true) ∧
  (∀ i, i < n → s.tasks i = .done → s.creates = 1)

/-- Demo trace, task 0: after the fast-path miss. -/
def provS1 : ProvState := { provInit with tasks := Function.update provInit.tasks 0 .waitLock }

/-- Demo trace, task 0: holding the create-db mutex. -/
def provS2 : ProvState :=
  { provS1 with lockHeld := some 0, tasks := Function.update provS1.tasks 0 .locked }

/-- Demo trace, task 0: after the re-check saw the database absent. -/
def provS3 : ProvState := { provS2 with tasks := Function.update provS2.tasks 0 .creating }

/-- Demo trace, task 0: after issuing CREATE DATABASE. -/
def provS4 : ProvState :=
  { provS3 with dbExists := true, creates := provS3.creates + 1, tasks := Function.update provS3.tasks 0 .unlocking }

/-- Demo trace, task 0: after releasing the mutex. -/
def provS5 : ProvState :=
  { provS4 with lockHeld := none, tasks := Function.update provS4.tasks 0 .done }

/-- Demo trace, task 1: done via the fast path, observing the database. -/
def provS6 : ProvState := { provS5 with tasks := Function.update provS5.tasks 1 .done }

/-- C6: the error-to-response mapping is total and exact: `Init` errors yield
status 200 with body location `"init"` and the wrapped driver message,
`Execute` errors yield 200 with location `"query"` and the wrapped message,
and both remaining error kinds (`Other` and `ColumnDecode`) yield status 500
with a fixed generic body that is independent of the detailed cause. -/
theorem c6_err_to_response_total_exact :
    ∀ m : String,
      errToResponse (.Init m) = (200, { location := "init", error := m }) ∧
      errToResponse (.Execute m) = (200, { location := "query", error := m }) ∧
      errToResponse (.Other m) =
        (500, { location := "other", error := "an internal error occurred" }) ∧
      errToResponse (.ColumnDecodeError m) =
        (500, { location := "other", error := "an internal error occurred" }) := by
  intro m
  exact ⟨rfl, rfl, rfl, rfl⟩

/-- C4: the decoder's if-else chain equals the specification-side decoder
that probes the driver value in the exact order string, decimal, f64, f32,
i64, i32, bool, date-time, date, where the first successful decode wins, a
decimal not representable as binary64 fails with `ColumnDecode(column_name)`,
and a value matching no probe fails with `ColumnDecode(column_name)`. -/
theorem c4_decode_probe_order :
    ∀ (name : String) (c : DriverCell), decodeCell name c = decodeSpec name c := by
  intro name c
  obtain ⟨s, d, f8, f4, i8, i4, b, dt, da⟩ := c
  cases s <;> cases d <;> cases f8 <;> cases f4 <;> cases i8 <;> cases i4 <;>
    cases b <;> cases dt <;> cases da <;>
    simp [decodeCell, decodeSpec, probeChain, List.findSome?]

/-- C2: evaluation of the registry at the failing input.  Starting from the
empty registry, two successive `get_connection` calls with the same
`(db, user, password)` triple each open a fresh pool: because lookups use the
key `"{user}@{db}"` while insertions use the key `db`, the first call's
insertion is invisible to the second call's lookup, so the second call opens
a second pool and returns it instead of the cached one (contradicting the
claim that every subsequent call returns the cached pool without opening a
new one). -/
theorem c2_get_connection_reopens_pool :
    (getConnection { cache := [], opened := 0 } "d" "u").1.opened = 1 ∧
    (getConnection (getConnection { cache := [], opened := 0 } "d" "u").1 "d" "u").1.opened = 2 ∧
    (getConnection (getConnection { cache := [], opened := 0 } "d" "u").1 "d" "u").2 ≠
      (getConnection { cache := [], opened := 0 } "d" "u").2 := by
  decide

/-- C1: evaluation of `batch_compare` at the failing input.  One solution
with `return_result_set = true` whose query yields `rsSolutionDemo` while the
submission yields `rsSubmissionDemo`: the response stores the solution's
result set in `submission_result_set` and the submission's result set in the
solution entry — swapped relative to the claim. -/
theorem c1_batch_compare_swapped :
    batchCompare execDemo "env" [solutionDemo] "sub" =
      some { solutions := [{ eq := false, result_set := some rsSubmissionDemo }],
             submission_result_set := some rsSolutionDemo } ∧
    rsSolutionDemo ≠ rsSubmissionDemo := by
  decide

/-- Length preservation of the collect pass. -/
theorem collectRows_length :
    ∀ (l : List (Except String DriverRow)) (rows : List DriverRow),
      collectRows l = .ok rows → rows.length = l.length := by
  intro l
  induction l with
  | nil => intro rows h; simp [collectRows] at h; simp [← h]
  | cons a rest ih =>
    intro rows h
    cases a with
    | error e => simp [collectRows] at h
    | ok row =>
      unfold collectRows at h
      cases hr : collectRows rest with
      | error e => rw [hr] at h; simp at h
      | ok rs =>
        rw [hr] at h
        simp at h
        simp [← h, ih rs hr]

/-- Length preservation of the decode pass. -/
theorem decodeRows_length :
    ∀ (rows : List DriverRow) (decoded : List (List SqlValue)),
      decodeRows rows = .ok decoded → decoded.length = rows.length := by
  intro rows
  induction rows with
  | nil => intro decoded h; simp [decodeRows] at h; simp [← h]
  | cons row rest ih =>
    intro decoded h
    unfold decodeRows at h
    cases hc : decodeRow row with
    | error e => rw [hc] at h; simp at h
    | ok v =>
      rw [hc] at h
      cases hr : decodeRows rest with
      | error e => rw [hr] at h; simp at h
      | ok vs =>
        rw [hr] at h
        simp at h
        simp [← h, ih vs hr]

/-- C7: the executor truncates silently at the row cap: whenever the driver
rows taken from the stream collect without driver error and decode without
column error, `extract` succeeds and returns exactly
`min max_rows_in_result_set M` rows for a stream of `M` rows; the empty
stream yields the empty result set `{ columns := [], rows := [] }`. -/
theorem c7_row_cap (maxRows : Nat) (stream : List (Except String DriverRow))
    (rows : List DriverRow) (decoded : List (List SqlValue))
    (h1 : collectRows (stream.take maxRows) = .ok rows)
    (h2 : decodeRows rows = .ok decoded) :
    (∃ cols, extract maxRows stream = .ok { columns := cols, rows := decoded } ∧
      decoded.length = min maxRows stream.length) ∧
    extract maxRows [] = .ok { columns := [], rows := [] } := by
  constructor
  · have hlen : decoded.length = min maxRows stream.length := by
      rw [decodeRows_length rows decoded h2, collectRows_length _ rows h1, List.length_take]
    unfold extract
    rw [h1]
    cases rows with
    | nil =>
      simp [decodeRows] at h2
      exact ⟨[], by simp [← h2], hlen⟩
    | cons first rest =>
      simp only [h2]
      exact ⟨first.map Prod.fst, rfl, hlen⟩
  · unfold extract
    rw [List.take_nil]
    rfl

/-- C7 witness: a two-row stream of integer cells with cap 1 extracts to a
single decoded row. -/
theorem c7_row_cap_witness :
    (∃ cols, extract 1 [.ok [("c", cellOfI64 5)], .ok [("c", cellOfI64 6)]] =
        .ok { columns := cols, rows := [[.Int 5]] } ∧
      ([[SqlValue.Int 5]] : List (List SqlValue)).length =
        min 1 ([.ok [("c", cellOfI64 5)], .ok [("c", cellOfI64 6)]] :
          List (Except String DriverRow)).length) ∧
    extract 1 [] = .ok { columns := [], rows := [] } :=
  c7_row_cap 1 [.ok [("c", cellOfI64 5)], .ok [("c", cellOfI64 6)]]
    [[("c", cellOfI64 5)]] [[.Int 5]] rfl rfl

/-- Pointwise characterization of row equality: equal lengths and equal cells
at every position. -/
theorem rowBeq_iff :
    ∀ a b : List SqlValue, rowBeq a b = true ↔
      (a.length = b.length ∧ ∀ i, sqlBeq (a.getD i (.Bool false)) (b.getD i (.Bool false)) = true) := by
  intro a
  induction a with
  | nil =>
    intro b
    cases b with
    | nil => simp [rowBeq, sqlBeq]
    | cons y ys => simp [rowBeq]
  | cons x xs ih =>
    intro b
    cases b with
    | nil => simp [rowBeq]
    | cons y ys =>
      simp only [rowBeq, Bool.and_eq_true, ih ys, List.length_cons]
      constructor
      · rintro ⟨hxy, hlen, hall⟩
        refine ⟨by omega, ?_⟩
        intro i
        cases i with
        | zero => simpa using hxy
        | succ j => simpa using hall j
      · rintro ⟨hlen, hall⟩
        refine ⟨by simpa using hall 0, by omega, ?_⟩
        intro i
        simpa using hall (i + 1)

/-- Pointwise characterization of rows equality: equal lengths and equal rows
at every position. -/
theorem rowsBeq_iff :
    ∀ a b : List (List SqlValue), rowsBeq a b = true ↔
      (a.length = b.length ∧ ∀ i, rowBeq (a.getD i []) (b.getD i []) = true) := by
  intro a
  induction a with
  | nil =>
    intro b
    cases b with
    | nil => simp [rowsBeq, rowBeq]
    | cons y ys => simp [rowsBeq]
  | cons x xs ih =>
    intro b
    cases b with
    | nil => simp [rowsBeq]
    | cons y ys =>
      simp only [rowsBeq, Bool.and_eq_true, ih ys, List.length_cons]
      constructor
      · rintro ⟨hxy, hlen, hall⟩
        refine ⟨by omega, ?_⟩
        intro i
        cases i with
        | zero => simpa using hxy
        | succ j => simpa using hall j
      · rintro ⟨hlen, hall⟩
        refine ⟨by simpa using hall 0, by omega, ?_⟩
        intro i
        simpa using hall (i + 1)

/-- C5 counterexample: Float cell equality is not bit-exact: the patterns of
`+0.0` (all zeros) and `-0.0` (sign bit set) differ, yet the two cells
compare equal under the derived `PartialEq`. -/
theorem c5_float_eq_not_bit_exact :
    sqlBeq (.Float { bits := 0 }) (.Float { bits := 2 ^ 63 }) = true ∧
    ({ bits := 0 } : F64) ≠ ({ bits := 2 ^ 63 } : F64) := by
  decide

/-- C5 amended: comparator equality is structural — result sets compare equal
iff the column lists are equal and the rows are equal cell-by-cell — and
equality between Float cells is IEEE-754 semantic equality, not bit-pattern
identity: two Float cells compare equal iff neither payload is NaN and the
payloads have the same order key (so NaN ≠ NaN even at identical patterns,
while `+0.0 = -0.0` despite distinct patterns). -/
theorem c5_structural_eq_ieee_float :
    (∀ a b : ResultSet, resultSetBeq a b = true ↔
      (a.columns = b.columns ∧ a.rows.length = b.rows.length ∧
        ∀ i, rowBeq (a.rows.getD i []) (b.rows.getD i []) = true)) ∧
    (∀ x y : F64, sqlBeq (.Float x) (.Float y) = true ↔
      (x.isNaN = false ∧ y.isNaN = false ∧ F64.key x = F64.key y)) ∧
    (∀ x : F64, x.isNaN = true → sqlBeq (.Float x) (.Float x) = false) := by
  refine ⟨?_, ?_, ?_⟩
  · intro a b
    simp [resultSetBeq, rowsBeq_iff, and_assoc]
  · intro x y
    simp [sqlBeq, f64Beq, and_assoc]
  · intro x h
    simp [sqlBeq, f64Beq, h]

/-- C5 amended witness: a NaN payload compared with itself is unequal. -/
theorem c5_structural_eq_ieee_float_witness :
    sqlBeq (.Float { bits := 0x7FF8000000000000 }) (.Float { bits := 0x7FF8000000000000 }) = false :=
  c5_structural_eq_ieee_float.2.2 { bits := 0x7FF8000000000000 } (by decide)

theorem cmpInt_eq_lt {a b : Int} : cmpInt a b = .lt ↔ a < b := by
  unfold cmpInt
  split_ifs with h1 h2 <;> simp_all

theorem cmpInt_eq_gt {a b : Int} : cmpInt a b = .gt ↔ b < a := by
  unfold cmpInt
  split_ifs with h1 h2 <;> simp_all <;> omega

theorem cmpInt_eq_eq {a b : Int} : cmpInt a b = .eq ↔ a = b := by
  unfold cmpInt
  split_ifs with h1 h2 <;> simp_all <;> omega

theorem cmpInt_swap (a b : Int) : cmpInt b a = (cmpInt a b).swap := by
  unfold cmpInt
  split_ifs <;> simp_all [Ordering.swap] <;> omega

theorem cmpInt_comp {x y z : Int} {o1 o2 o3 : Ordering}
    (h1 : cmpInt x y = o1) (h2 : cmpInt y z = o2) (h3 : cmpInt x z = o3)
    (g1 : o1 ≠ .gt) (g2 : o2 ≠ .gt) :
    o3 ≠ .gt ∧ (o3 = .eq → o1 = .eq ∧ o2 = .eq) := by
  unfold cmpInt at h1 h2 h3
  split_ifs at h1 h2 h3 <;> subst h1 <;> subst h2 <;> subst h3 <;>
    simp_all <;> omega

theorem uint32_toNat_inj {a b : UInt32} (h : a.toNat = b.toNat) : a = b := by
  cases a with | mk ba =>
  cases b with | mk bb =>
  simp only [UInt32.toNat] at h
  congr 1
  exact BitVec.eq_of_toNat_eq h

theorem char_toNat_inj {c d : Char} (h : c.toNat = d.toNat) : c = d :=
  Char.ext (uint32_toNat_inj h)

theorem cmpChar_eq_eq {a b : Char} : cmpChar a b = .eq ↔ a = b := by
  unfold cmpChar
  rw [cmpInt_eq_eq]
  constructor
  · intro h
    exact char_toNat_inj (by exact_mod_cast h)
  · intro h
    simp [h]

theorem cmpChar_swap (a b : Char) : cmpChar b a = (cmpChar a b).swap := by
  unfold cmpChar
  exact cmpInt_swap _ _

theorem cmpCharList_eq_eq : ∀ as bs : List Char, cmpCharList as bs = .eq ↔ as = bs := by
  intro as
  induction as with
  | nil => intro bs; cases bs <;> simp [cmpCharList]
  | cons a as ih =>
    intro bs
    cases bs with
    | nil => simp [cmpCharList]
    | cons b bs =>
      simp only [cmpCharList]
      by_cases hab : cmpChar a b = .eq
      · have hab' : a = b := cmpChar_eq_eq.mp hab
        subst hab'
        simp [hab, ih bs]
      · have hab' : a ≠ b := fun h => hab (cmpChar_eq_eq.mpr h)
        simp [hab, hab']

theorem cmpCharList_swap : ∀ as bs : List Char, cmpCharList bs as = (cmpCharList as bs).swap := by
  intro as
  induction as with
  | nil => intro bs; cases bs <;> simp [cmpCharList, Ordering.swap]
  | cons a as ih =>
    intro bs
    cases bs with
    | nil => simp [cmpCharList, Ordering.swap]
    | cons b bs =>
      simp only [cmpCharList, cmpChar_swap a b]
      by_cases hab : cmpChar a b = .eq
      · simp [hab, Ordering.swap, ih bs]
      · have : (cmpChar a b).swap ≠ .eq := by
          cases h : cmpChar a b <;> simp_all [Ordering.swap]
        simp [hab, this]

theorem cmpCharList_lt_trans :
    ∀ as bs cs : List Char, cmpCharList as bs = .lt → cmpCharList bs cs = .lt →
      cmpCharList as cs = .lt := by
  intro as
  induction as with
  | nil =>
    intro bs cs h1 h2
    cases bs with
    | nil => cases h1
    | cons b bs =>
      cases cs with
      | nil => cases h2
      | cons c cs => simp [cmpCharList]
  | cons a as ih =>
    intro bs cs h1 h2
    cases bs with
    | nil => simp [cmpCharList] at h1
    | cons b bs =>
      cases cs with
      | nil => simp [cmpCharList] at h2
      | cons c cs =>
        simp only [cmpCharList] at h1 h2 ⊢
        by_cases hab : cmpChar a b = .eq
        · have hab' : a = b := cmpChar_eq_eq.mp hab
          subst hab'
          rw [if_pos hab] at h1
          by_cases hbc : cmpChar a c = .eq
          · rw [if_pos hbc] at h2
            rw [if_pos hbc]
            exact ih bs cs h1 h2
          · rw [if_neg hbc] at h2
            rw [if_neg hbc]
            exact h2
        · rw [if_neg hab] at h1
          by_cases hbc : cmpChar b c = .eq
          · have hbc' : b = c := cmpChar_eq_eq.mp hbc
            subst hbc'
            rw [if_neg hab]
            exact h1
          · rw [if_neg hbc] at h2
            have hac : cmpChar a c = .lt := by
              unfold cmpChar at h1 h2 ⊢
              rw [cmpInt_eq_lt] at h1 h2 ⊢
              omega
            rw [if_neg (by rw [hac]; decide), hac]

theorem cmpCharList_comp {as bs cs : List Char} {o1 o2 o3 : Ordering}
    (h1 : cmpCharList as bs = o1) (h2 : cmpCharList bs cs = o2)
    (h3 : cmpCharList as cs = o3) (g1 : o1 ≠ .gt) (g2 : o2 ≠ .gt) :
    o3 ≠ .gt ∧ (o3 = .eq → o1 = .eq ∧ o2 = .eq) := by
  cases o1 with
  | gt => exact absurd rfl g1
  | eq =>
    have hab : as = bs := (cmpCharList_eq_eq as bs).mp h1
    subst hab
    cases o2 with
    | gt => exact absurd rfl g2
    | eq =>
      have hac : as = cs := (cmpCharList_eq_eq as cs).mp h2
      subst hac
      have h3' : o3 = .eq := by rw [← h3, (cmpCharList_eq_eq as as).mpr rfl]
      subst h3'
      exact ⟨by decide, fun _ => ⟨rfl, rfl⟩⟩
    | lt =>
      have h3' : o3 = .lt := by rw [← h3, ← h2]
      subst h3'
      exact ⟨by decide, by intro h; cases h⟩
  | lt =>
    cases o2 with
    | gt => exact absurd rfl g2
    | eq =>
      have hbc : bs = cs := (cmpCharList_eq_eq bs cs).mp h2
      subst hbc
      have h3' : o3 = .lt := by rw [← h3, ← h1]
      subst h3'
      exact ⟨by decide, by intro h; cases h⟩
    | lt =>
      have h3' : o3 = .lt := by rw [← h3, cmpCharList_lt_trans as bs cs h1 h2]
      subst h3'
      exact ⟨by decide, by intro h; cases h⟩

theorem f64PCmp_swap (x y : F64) : f64PCmp y x = (f64PCmp x y).map Ordering.swap := by
  unfold f64PCmp
  by_cases hx : x.isNaN <;> by_cases hy : y.isNaN <;> simp [hx, hy]
  rw [cmpInt_swap]

theorem f64PCmp_comp {x y z : F64} {o1 o2 o3 : Ordering}
    (h1 : f64PCmp x y = some o1) (h2 : f64PCmp y z = some o2) (h3 : f64PCmp x z = some o3)
    (g1 : o1 ≠ .gt) (g2 : o2 ≠ .gt) :
    o3 ≠ .gt ∧ (o3 = .eq → o1 = .eq ∧ o2 = .eq) := by
  unfold f64PCmp at h1 h2 h3
  by_cases hx : x.isNaN <;> by_cases hy : y.isNaN <;> by_cases hz : z.isNaN <;>
    simp [hx, hy, hz] at h1 h2 h3
  exact cmpInt_comp h1 h2 h3 g1 g2

theorem sqlPCmp_swap : ∀ a b : SqlValue, sqlPCmp b a = (sqlPCmp a b).map Ordering.swap := by
  intro a b
  cases a <;> cases b <;>
    first
      | (simp only [sqlPCmp]; exact f64PCmp_swap _ _)
      | (simp only [sqlPCmp]; rw [cmpCharList_swap]; rfl)
      | (simp only [sqlPCmp, cmpBool]; rw [cmpInt_swap]; rfl)

theorem sqlPCmp_comp : ∀ (a b c : SqlValue) {o1 o2 o3 : Ordering},
    sqlPCmp a b = some o1 → sqlPCmp b c = some o2 → sqlPCmp a c = some o3 →
    o1 ≠ .gt → o2 ≠ .gt → o3 ≠ .gt ∧ (o3 = .eq → o1 = .eq ∧ o2 = .eq) := by
  intro a b c o1 o2 o3 h1 h2 h3 g1 g2
  cases a <;> cases b <;> cases c <;>
    simp only [sqlPCmp, sqlRank, cmpBool] at h1 h2 h3 <;>
    first
      | exact f64PCmp_comp h1 h2 h3 g1 g2
      | (injection h1 with e1; injection h2 with e2; injection h3 with e3;
         first
           | exact cmpInt_comp e1 e2 e3 g1 g2
           | exact cmpCharList_comp e1 e2 e3 g1 g2)
      | (simp [cmpInt] at h1 h2 h3
         try subst o1
         try subst o2
         try subst o3
         simp_all)

theorem string_eq_of_data_eq {a b : String} (h : a.data = b.data) : a = b := by
  cases a with | mk da =>
  cases b with | mk db =>
  exact congrArg String.mk h

theorem f64Beq_iff_pcmp_eq {x y : F64} : f64Beq x y = true ↔ f64PCmp x y = some .eq := by
  unfold f64Beq f64PCmp
  by_cases hx : x.isNaN <;> by_cases hy : y.isNaN <;>
    simp [hx, hy, cmpInt_eq_eq]

theorem sqlBeq_iff_pcmp_eq : ∀ a b : SqlValue, sqlBeq a b = true ↔ sqlPCmp a b = some .eq := by
  intro a b
  cases a with
  | Bool x =>
    cases b with
    | Bool y => cases x <;> cases y <;> decide
    | Int y => simp [sqlBeq, sqlPCmp, sqlRank, cmpInt]
    | Float y => simp [sqlBeq, sqlPCmp, sqlRank, cmpInt]
    | Text y => simp [sqlBeq, sqlPCmp, sqlRank, cmpInt]
  | Int x =>
    cases b with
    | Bool y => simp [sqlBeq, sqlPCmp, sqlRank, cmpInt]
    | Int y => simp [sqlBeq, sqlPCmp, cmpInt_eq_eq]
    | Float y => simp [sqlBeq, sqlPCmp, sqlRank, cmpInt]
    | Text y => simp [sqlBeq, sqlPCmp, sqlRank, cmpInt]
  | Float x =>
    cases b with
    | Bool y => simp [sqlBeq, sqlPCmp, sqlRank, cmpInt]
    | Int y => simp [sqlBeq, sqlPCmp, sqlRank, cmpInt]
    | Float y => simp [sqlBeq, sqlPCmp, f64Beq_iff_pcmp_eq]
    | Text y => simp [sqlBeq, sqlPCmp, sqlRank, cmpInt]
  | Text x =>
    cases b with
    | Bool y => simp [sqlBeq, sqlPCmp, sqlRank, cmpInt]
    | Int y => simp [sqlBeq, sqlPCmp, sqlRank, cmpInt]
    | Float y => simp [sqlBeq, sqlPCmp, sqlRank, cmpInt]
    | Text y =>
      simp only [sqlBeq, sqlPCmp, beq_iff_eq, Option.some.injEq]
      rw [cmpCharList_eq_eq]
      exact ⟨fun h => by rw [h], string_eq_of_data_eq⟩

theorem sqlBeq_trans {a b c : SqlValue} (h1 : sqlBeq a b = true) (h2 : sqlBeq b c = true) :
    sqlBeq a c = true := by
  cases a <;> cases b <;> cases c <;> simp_all [sqlBeq, f64Beq]

theorem sqlBeq_left_refl {a b : SqlValue} (h : sqlBeq a b = true) : sqlBeq a a = true := by
  cases a <;> cases b <;> simp_all [sqlBeq, f64Beq]

theorem sqlPCmp_eq_trans {a b c : SqlValue} (h1 : sqlPCmp a b = some .eq)
    (h2 : sqlPCmp b c = some .eq) : sqlPCmp a c = some .eq :=
  (sqlBeq_iff_pcmp_eq a c).mp
    (sqlBeq_trans ((sqlBeq_iff_pcmp_eq a b).mpr h1) ((sqlBeq_iff_pcmp_eq b c).mpr h2))


theorem sqlPCmp_congr_left {a b : SqlValue} (h : sqlPCmp a b = some .eq) :
    ∀ c, sqlPCmp a c = sqlPCmp b c := by
  have hb := (sqlBeq_iff_pcmp_eq a b).mpr h
  intro c
  cases a <;> cases b <;> simp [sqlBeq, f64Beq] at hb <;>
    first
      | (subst hb; rfl)
      | (obtain ⟨⟨hx, hy⟩, hk⟩ := hb
         cases c <;> simp [sqlPCmp, sqlRank, f64PCmp, hx, hy, hk])

theorem sqlPCmp_congr_right {b c : SqlValue} (h : sqlPCmp b c = some .eq) :
    ∀ a, sqlPCmp a b = sqlPCmp a c := by
  intro a
  have h' : sqlPCmp c b = some .eq := by
    rw [sqlPCmp_swap b c, h]; rfl
  rw [sqlPCmp_swap b a, sqlPCmp_swap c a, sqlPCmp_congr_left h' a]

theorem rowPCmp_swap : ∀ a b : List SqlValue, rowPCmp b a = (rowPCmp a b).map Ordering.swap := by
  intro a
  induction a with
  | nil => intro b; cases b <;> simp [rowPCmp, Ordering.swap]
  | cons x xs ih =>
    intro b
    cases b with
    | nil => simp [rowPCmp, Ordering.swap]
    | cons y ys =>
      simp only [rowPCmp, sqlPCmp_swap x y]
      by_cases h : sqlPCmp x y = some .eq
      · simp [h, Ordering.swap, ih ys]
      · have h' : (sqlPCmp x y).map Ordering.swap ≠ some .eq := by
          cases he : sqlPCmp x y with
          | none => simp
          | some o => cases o <;> simp_all [Ordering.swap]
        simp [h, h']

theorem rowPCmp_self_not_gt : ∀ a : List SqlValue, rowPCmp a a ≠ some .gt := by
  intro a h
  have hswap := rowPCmp_swap a a
  rw [h] at hswap
  cases hswap

theorem rowBeq_iff_pcmp_eq : ∀ a b : List SqlValue, rowBeq a b = true ↔ rowPCmp a b = some .eq := by
  intro a
  induction a with
  | nil => intro b; cases b <;> simp [rowBeq, rowPCmp]
  | cons x xs ih =>
    intro b
    cases b with
    | nil => simp [rowBeq, rowPCmp]
    | cons y ys =>
      simp only [rowBeq, rowPCmp, Bool.and_eq_true]
      by_cases h : sqlPCmp x y = some .eq
      · simp [h, (sqlBeq_iff_pcmp_eq x y).mpr h, ih ys]
      · have hb : sqlBeq x y ≠ true := fun hbeq => h ((sqlBeq_iff_pcmp_eq x y).mp hbeq)
        simp [h, hb]

theorem rowBeq_left_refl : ∀ {a b : List SqlValue}, rowBeq a b = true → rowBeq a a = true := by
  intro a
  induction a with
  | nil => intro b h; simp [rowBeq]
  | cons x xs ih =>
    intro b h
    cases b with
    | nil => simp [rowBeq] at h
    | cons y ys =>
      simp only [rowBeq, Bool.and_eq_true] at h ⊢
      exact ⟨sqlBeq_left_refl h.1, ih h.2⟩

theorem rowPCmp_comp :
    ∀ (a b c : List SqlValue) {o1 o2 o3 : Ordering},
      rowPCmp a b = some o1 → rowPCmp b c = some o2 → rowPCmp a c = some o3 →
      o1 ≠ .gt → o2 ≠ .gt → o3 ≠ .gt ∧ (o3 = .eq → o1 = .eq ∧ o2 = .eq) := by
  intro a
  induction a with
  | nil =>
    intro b c o1 o2 o3 h1 h2 h3 g1 g2
    cases b with
    | nil =>
      cases c with
      | nil =>
        simp [rowPCmp] at h1 h2 h3
        subst h1; subst h2; subst h3
        exact ⟨by decide, fun _ => ⟨rfl, rfl⟩⟩
      | cons z zs =>
        simp [rowPCmp] at h1 h2 h3
        subst h1; subst h2; subst h3
        exact ⟨by decide, by intro hcon; cases hcon⟩
    | cons y ys =>
      cases c with
      | nil =>
        simp [rowPCmp] at h2
        subst h2
        exact absurd rfl g2
      | cons z zs =>
        simp [rowPCmp] at h1 h3
        subst h1; subst h3
        exact ⟨by decide, by intro hcon; cases hcon⟩
  | cons x xs ih =>
    intro b c o1 o2 o3 h1 h2 h3 g1 g2
    cases b with
    | nil =>
      simp [rowPCmp] at h1
      subst h1
      exact absurd rfl g1
    | cons y ys =>
      cases c with
      | nil =>
        simp [rowPCmp] at h2
        subst h2
        exact absurd rfl g2
      | cons z zs =>
        simp only [rowPCmp] at h1 h2 h3
        by_cases e1 : sqlPCmp x y = some .eq
        · rw [if_pos e1] at h1
          by_cases e2 : sqlPCmp y z = some .eq
          · have e3 : sqlPCmp x z = some .eq := sqlPCmp_eq_trans e1 e2
            rw [if_pos e2] at h2
            rw [if_pos e3] at h3
            exact ih ys zs h1 h2 h3 g1 g2
          · have hxz : sqlPCmp x z = sqlPCmp y z := sqlPCmp_congr_left e1 z
            rw [if_neg e2] at h2
            rw [if_neg (by rw [hxz]; exact e2), hxz, h2] at h3
            injection h3 with h3'
            subst h3'
            refine ⟨g2, ?_⟩
            intro hcon
            exact absurd (hcon ▸ h2) e2
        · rw [if_neg e1] at h1
          by_cases e2 : sqlPCmp y z = some .eq
          · have hxz : sqlPCmp x z = sqlPCmp x y := (sqlPCmp_congr_right e2 x).symm
            rw [if_neg (by rw [hxz]; exact e1), hxz, h1] at h3
            injection h3 with h3'
            subst h3'
            refine ⟨g1, ?_⟩
            intro hcon
            exact absurd (hcon ▸ h1) e1
          · rw [if_neg e2] at h2
            by_cases e3 : sqlPCmp x z = some .eq
            · have hcomp := sqlPCmp_comp x y z h1 h2 e3 g1 g2
              exact absurd (hcomp.2 rfl).1 (by intro he; exact e1 (he ▸ h1))
            · rw [if_neg e3] at h3
              have hcomp := sqlPCmp_comp x y z h1 h2 h3 g1 g2
              refine ⟨hcomp.1, ?_⟩
              intro hcon
              exact absurd (hcon ▸ h3) e3

theorem beq_gt_false_of_ne {x : Option Ordering} (h : x ≠ some .gt) :
    (x == some Ordering.gt) = false := by
  cases x with
  | none => rfl
  | some o =>
    cases o with
    | gt => exact absurd rfl h
    | lt => rfl
    | eq => rfl

theorem ne_gt_of_beq_false {x : Option Ordering} (h : (x == some Ordering.gt) = false) :
    x ≠ some .gt := by
  intro he
  subst he
  exact absurd h (by decide)

theorem leRow_of_not_gt {a b : List SqlValue} (h : rowPCmp a b ≠ some .gt) : leRow a b = true := by
  unfold leRow
  rw [beq_gt_false_of_ne h]
  rfl

theorem not_gt_of_leRow {a b : List SqlValue} (h : leRow a b = true) : rowPCmp a b ≠ some .gt := by
  unfold leRow at h
  apply ne_gt_of_beq_false
  cases hb : rowPCmp a b == some Ordering.gt
  · rfl
  · rw [hb] at h; exact absurd h (by decide)

theorem leRow_total (a b : List SqlValue) : leRow a b = true ∨ leRow b a = true := by
  by_cases h : rowPCmp a b = some .gt
  · right
    apply leRow_of_not_gt
    rw [rowPCmp_swap a b, h]
    decide
  · left
    exact leRow_of_not_gt h

theorem leRow_refl (a : List SqlValue) : leRow a a = true :=
  leRow_of_not_gt (rowPCmp_self_not_gt a)

/-- Characterization of the comparability gate: every pair taken from the
list is comparable unless both members are the same single occurrence. -/
theorem comparableRows_defined :
    ∀ (l : List (List SqlValue)), comparableRows l = true →
      ∀ a ∈ l, ∀ b ∈ l, (rowPCmp a b).isSome = true ∨ a = b := by
  intro l
  induction l with
  | nil => intro _ a ha; cases ha
  | cons x xs ih =>
    intro h a ha b hb
    simp only [comparableRows, Bool.and_eq_true, List.all_eq_true] at h
    obtain ⟨hx, hxs⟩ := h
    rcases List.mem_cons.mp ha with ha1 | ha2
    · rcases List.mem_cons.mp hb with hb1 | hb2
      · right; rw [ha1, hb1]
      · left; rw [ha1]; exact hx b hb2
    · rcases List.mem_cons.mp hb with hb1 | hb2
      · left
        rw [hb1, rowPCmp_swap x a]
        have := hx a ha2
        cases hc : rowPCmp x a with
        | none => rw [hc] at this; cases this
        | some o => simp
      · exact ih hxs a ha2 b hb2

theorem comparableRows_perm :
    ∀ {l l' : List (List SqlValue)}, l.Perm l' → comparableRows l = comparableRows l' := by
  have key : ∀ l l' : List (List SqlValue), l.Perm l' →
      comparableRows l = true → comparableRows l' = true := by
    intro l l' hperm h
    have hpair : l.Pairwise (fun a b => (rowPCmp a b).isSome = true) := by
      clear hperm
      induction l with
      | nil => exact List.Pairwise.nil
      | cons x xs ih =>
        simp only [comparableRows, Bool.and_eq_true, List.all_eq_true] at h
        exact List.Pairwise.cons (fun b hb => h.1 b hb) (ih h.2)
    have hsymm : Symmetric (fun a b : List SqlValue => (rowPCmp a b).isSome = true) := by
      intro a b hab
      rw [rowPCmp_swap a b]
      cases hc : rowPCmp a b with
      | none => rw [hc] at hab; cases hab
      | some o => simp
    have hpair' : l'.Pairwise (fun a b => (rowPCmp a b).isSome = true) := by
      refine (List.Perm.pairwise_iff ?_ hperm).mp hpair
      intro a b hab
      exact hsymm hab
    clear h hperm hpair
    induction l' with
    | nil => rfl
    | cons x xs ih =>
      rcases List.pairwise_cons.mp hpair' with ⟨hx, hxs⟩
      simp only [comparableRows, Bool.and_eq_true, List.all_eq_true]
      exact ⟨fun b hb => hx b hb, ih hxs⟩
  intro l l' hperm
  by_cases h : comparableRows l = true
  · rw [h, key l l' hperm h]
  · by_cases h' : comparableRows l' = true
    · exact absurd (key l' l hperm.symm h') h
    · rw [Bool.not_eq_true] at h h'
      rw [h, h']

theorem stableInsert_perm (le : α → α → Bool) (x : α) :
    ∀ l : List α, (stableInsert le x l).Perm (x :: l) := by
  intro l
  induction l with
  | nil => exact List.Perm.refl _
  | cons y ys ih =>
    simp only [stableInsert]
    by_cases h : le x y = true
    · rw [if_pos h]
    · rw [if_neg h]
      exact (List.Perm.cons y ih).trans (List.Perm.swap x y ys)

theorem stableSort_perm (le : α → α → Bool) :
    ∀ l : List α, (stableSort le l).Perm l := by
  intro l
  induction l with
  | nil => exact List.Perm.refl _
  | cons x xs ih =>
    exact (stableInsert_perm le x (stableSort le xs)).trans (List.Perm.cons x ih)

theorem mem_stableInsert {le : α → α → Bool} {x z : α} {l : List α}
    (h : z ∈ stableInsert le x l) : z = x ∨ z ∈ l := by
  have := (stableInsert_perm le x l).mem_iff.mp h
  simpa using this

theorem pairwise_stableInsert {le : α → α → Bool} {x : α} :
    ∀ {l : List α}, l.Pairwise (fun a b => le a b = true) →
      (∀ b ∈ l, le x b = true ∨ le b x = true) →
      (∀ b ∈ l, ∀ c ∈ l, le x b = true → le b c = true → le x c = true) →
      (stableInsert le x l).Pairwise (fun a b => le a b = true) := by
  intro l
  induction l with
  | nil => intro _ _ _; simp [stableInsert]
  | cons y ys ih =>
    intro hs htot htrans
    rcases List.pairwise_cons.mp hs with ⟨hy, hys⟩
    simp only [stableInsert]
    by_cases h : le x y = true
    · rw [if_pos h]
      refine List.Pairwise.cons ?_ hs
      intro z hz
      rcases List.mem_cons.mp hz with rfl | hz'
      · exact h
      · exact htrans y (List.mem_cons_self y ys) z (List.mem_cons_of_mem y hz') h (hy z hz')
    · rw [if_neg h]
      refine List.Pairwise.cons ?_ ?_
      · intro z hz
        rcases mem_stableInsert hz with rfl | hz'
        · rcases htot y (List.mem_cons_self y ys) with hxy | hyx
          · exact absurd hxy h
          · exact hyx
        · exact hy z hz'
      · refine ih hys ?_ ?_
        · intro b hb
          exact htot b (List.mem_cons_of_mem y hb)
        · intro b hb c hc
          exact htrans b (List.mem_cons_of_mem y hb) c (List.mem_cons_of_mem y hc)

theorem pairwise_stableSort {le : α → α → Bool} :
    ∀ {l : List α}, (∀ a ∈ l, ∀ b ∈ l, le a b = true ∨ le b a = true) →
      (∀ a ∈ l, ∀ b ∈ l, ∀ c ∈ l, le a b = true → le b c = true → le a c = true) →
      (stableSort le l).Pairwise (fun a b => le a b = true) := by
  intro l
  induction l with
  | nil => intro _ _; simp [stableSort]
  | cons x xs ih =>
    intro htot htrans
    have hmem : ∀ b ∈ stableSort le xs, b ∈ xs := fun b hb =>
      (stableSort_perm le xs).mem_iff.mp hb
    refine pairwise_stableInsert ?_ ?_ ?_
    · refine ih ?_ ?_
      · intro a ha b hb
        exact htot a (List.mem_cons_of_mem x ha) b (List.mem_cons_of_mem x hb)
      · intro a ha b hb c hc
        exact htrans a (List.mem_cons_of_mem x ha) b (List.mem_cons_of_mem x hb)
          c (List.mem_cons_of_mem x hc)
    · intro b hb
      exact htot x (List.mem_cons_self x xs) b (List.mem_cons_of_mem x (hmem b hb))
    · intro b hb c hc
      exact htrans x (List.mem_cons_self x xs) b (List.mem_cons_of_mem x (hmem b hb))
        c (List.mem_cons_of_mem x (hmem c hc))

theorem stableSort_of_pairwise {le : α → α → Bool} :
    ∀ {l : List α}, l.Pairwise (fun a b => le a b = true) → stableSort le l = l := by
  intro l
  induction l with
  | nil => intro _; rfl
  | cons x xs ih =>
    intro hs
    rcases List.pairwise_cons.mp hs with ⟨hx, hxs⟩
    simp only [stableSort]
    rw [ih hxs]
    cases xs with
    | nil => rfl
    | cons y ys =>
      simp only [stableInsert]
      rw [if_pos (hx y (List.mem_cons_self y ys))]

theorem leRow_trans_of_gate {l : List (List SqlValue)} (hgate : comparableRows l = true) :
    ∀ a ∈ l, ∀ b ∈ l, ∀ c ∈ l, leRow a b = true → leRow b c = true → leRow a c = true := by
  have hdef := comparableRows_defined l hgate
  intro a ha b hb c hc h1 h2
  rcases hdef a ha b hb with hab | rfl
  · rcases hdef b hb c hc with hbc | rfl
    · rcases hdef a ha c hc with hac | rfl
      · obtain ⟨o1, e1⟩ := Option.isSome_iff_exists.mp hab
        obtain ⟨o2, e2⟩ := Option.isSome_iff_exists.mp hbc
        obtain ⟨o3, e3⟩ := Option.isSome_iff_exists.mp hac
        have g1 : o1 ≠ .gt := fun hgt => not_gt_of_leRow h1 (by rw [e1, hgt])
        have g2 : o2 ≠ .gt := fun hgt => not_gt_of_leRow h2 (by rw [e2, hgt])
        have hcomp := rowPCmp_comp a b c e1 e2 e3 g1 g2
        apply leRow_of_not_gt
        intro hgt
        rw [e3] at hgt
        injection hgt with hgt'
        exact hcomp.1 hgt'
      · exact leRow_refl a
    · exact h1
  · exact h2

/-- C3 counterexample: a result set whose two rows hold NaN float cells: the
rows are incomparable (`partial_cmp` is `None`), so the `unwrap` in
`sort_rows` panics — modelled as `none` — refuting the claim that `sort_rows`
completes without failure on every `ResultSet`. -/
theorem c3_sort_rows_nan_panics :
    sortRows
      { columns := ["a"]
        rows := [[.Float { bits := 0x7FF8000000000000 }],
                 [.Float { bits := 0x7FF8000000000000 }]] } = none := by
  decide

/-- C3 amended: on every `ResultSet` whose rows are pairwise comparable (in
particular, any result set without NaN float cells), `sort_rows` completes
without failure, permutes the rows (deterministically — it is a function of
the input), and collates equal rows together: between two equal rows of the
output every row is equal to them.  On a result set with two incomparable
rows (NaN floats at matching positions) it panics, see the counterexample. -/
theorem c3_sort_rows_on_comparable :
    ∀ r : ResultSet, comparableRows r.rows = true →
      ∃ r', sortRows r = some r' ∧ r'.rows.Perm r.rows ∧
        ∀ i j k : Nat, i ≤ j → j ≤ k → k < r'.rows.length →
          rowBeq (r'.rows.getD i []) (r'.rows.getD k []) = true →
          rowBeq (r'.rows.getD i []) (r'.rows.getD j []) = true := by
  intro r hgate
  have hperm : (stableSort leRow r.rows).Perm r.rows := stableSort_perm leRow r.rows
  refine ⟨{ r with rows := stableSort leRow r.rows }, by simp [sortRows, hgate], hperm, ?_⟩
  intro i j k hij hjk hk hik
  by_cases hije : i = j
  · subst hije
    exact rowBeq_left_refl hik
  by_cases hjke : j = k
  · subst hjke
    exact hik
  have hij' : i < j := lt_of_le_of_ne hij hije
  have hjk' : j < k := lt_of_le_of_ne hjk hjke
  have hj : j < (stableSort leRow r.rows).length := lt_trans hjk' hk
  have hi : i < (stableSort leRow r.rows).length := lt_trans hij' hj
  have hsorted : (stableSort leRow r.rows).Pairwise (fun a b => leRow a b = true) :=
    pairwise_stableSort (fun a _ b _ => leRow_total a b) (leRow_trans_of_gate hgate)
  have hgate' : comparableRows (stableSort leRow r.rows) = true := by
    rw [comparableRows_perm hperm]
    exact hgate
  have hdef := comparableRows_defined _ hgate'
  set out := stableSort leRow r.rows with hout
  have hgdi : out.getD i [] = out[i] := List.getD_eq_getElem out [] hi
  have hgdj : out.getD j [] = out[j] := List.getD_eq_getElem out [] hj
  have hgdk : out.getD k [] = out[k] := List.getD_eq_getElem out [] hk
  rw [hgdi, hgdj]
  rw [hgdi, hgdk] at hik
  have hmi : out[i] ∈ out := List.getElem_mem hi
  have hmj : out[j] ∈ out := List.getElem_mem hj
  have hmk : out[k] ∈ out := List.getElem_mem hk
  have hle1 : leRow out[i] out[j] = true :=
    (List.pairwise_iff_getElem.mp hsorted) i j hi hj hij'
  have hle2 : leRow out[j] out[k] = true :=
    (List.pairwise_iff_getElem.mp hsorted) j k hj hk hjk'
  rcases hdef out[i] hmi out[j] hmj with hab | heq
  · rcases hdef out[j] hmj out[k] hmk with hbc | heq2
    · obtain ⟨o1, e1⟩ := Option.isSome_iff_exists.mp hab
      obtain ⟨o2, e2⟩ := Option.isSome_iff_exists.mp hbc
      have e3 : rowPCmp out[i] out[k] = some .eq := (rowBeq_iff_pcmp_eq _ _).mp hik
      have g1 : o1 ≠ .gt := fun hgt => not_gt_of_leRow hle1 (by rw [e1, hgt])
      have g2 : o2 ≠ .gt := fun hgt => not_gt_of_leRow hle2 (by rw [e2, hgt])
      have hcomp := rowPCmp_comp out[i] out[j] out[k] e1 e2 e3 g1 g2
      have ho1 : o1 = .eq := (hcomp.2 rfl).1
      exact (rowBeq_iff_pcmp_eq _ _).mpr (by rw [e1, ho1])
    · rw [heq2]
      exact hik
  · rw [← heq]
    exact rowBeq_left_refl hik

/-- C3 amended witness: a concrete three-row integer result set is sortable;
the amended theorem applies with the comparability gate discharged by
computation. -/
theorem c3_sort_rows_on_comparable_witness :
    ∃ r', sortRows { columns := ["a"], rows := [[.Int 2], [.Int 1], [.Int 2]] } = some r' ∧
      r'.rows.Perm [[SqlValue.Int 2], [SqlValue.Int 1], [SqlValue.Int 2]] ∧
      ∀ i j k : Nat, i ≤ j → j ≤ k → k < r'.rows.length →
        rowBeq (r'.rows.getD i []) (r'.rows.getD k []) = true →
        rowBeq (r'.rows.getD i []) (r'.rows.getD j []) = true :=
  c3_sort_rows_on_comparable { columns := ["a"], rows := [[.Int 2], [.Int 1], [.Int 2]] }
    (by decide)

theorem beq_gtOrd_false_of_ne {o : Ordering} (h : o ≠ .gt) : (o == Ordering.gt) = false := by
  cases o with
  | gt => exact absurd rfl h
  | lt => rfl
  | eq => rfl

theorem leName_of_not_gt {x y : Nat × String} (h : cmpCharList x.2.data y.2.data ≠ .gt) :
    leName x y = true := by
  unfold leName
  rw [beq_gtOrd_false_of_ne h]
  rfl

theorem not_gt_of_leName {x y : Nat × String} (h : leName x y = true) :
    cmpCharList x.2.data y.2.data ≠ .gt := by
  unfold leName at h
  intro he
  rw [he] at h
  exact absurd h (by decide)

theorem leName_total (x y : Nat × String) : leName x y = true ∨ leName y x = true := by
  by_cases h : cmpCharList x.2.data y.2.data = .gt
  · right
    apply leName_of_not_gt
    rw [cmpCharList_swap, h]
    decide
  · left
    exact leName_of_not_gt h

theorem leName_trans {x y z : Nat × String} (h1 : leName x y = true) (h2 : leName y z = true) :
    leName x z = true := by
  have hcomp := @cmpCharList_comp x.2.data y.2.data z.2.data _ _ _
    rfl rfl rfl (not_gt_of_leName h1) (not_gt_of_leName h2)
  exact leName_of_not_gt hcomp.1

theorem indexedFrom_map_snd : ∀ (l : List String) (k : Nat),
    (indexedFrom k l).map Prod.snd = l := by
  intro l
  induction l with
  | nil => intro k; rfl
  | cons s rest ih =>
    intro k
    simp [indexedFrom, ih (k + 1)]

theorem indexedFrom_length : ∀ (l : List String) (k : Nat),
    (indexedFrom k l).length = l.length := by
  intro l
  induction l with
  | nil => intro k; rfl
  | cons s rest ih =>
    intro k
    simp [indexedFrom, ih (k + 1)]

theorem indexedFrom_map_fst : ∀ (l : List String) (k : Nat),
    (indexedFrom k l).map Prod.fst = List.range' k l.length := by
  intro l
  induction l with
  | nil => intro k; rfl
  | cons s rest ih =>
    intro k
    simp [indexedFrom, List.range'_succ, ih (k + 1)]

theorem mem_indexedFrom : ∀ {l : List String} {k : Nat} {p : Nat × String},
    p ∈ indexedFrom k l → p.2 ∈ l := by
  intro l
  induction l with
  | nil => intro k p h; cases h
  | cons s rest ih =>
    intro k p h
    rcases List.mem_cons.mp h with rfl | h'
    · exact List.mem_cons_self _ _
    · exact List.mem_cons_of_mem _ (ih h')

theorem pairwise_leName_indexedFrom :
    ∀ {l : List String} {k : Nat},
      l.Pairwise (fun s t => cmpCharList s.data t.data ≠ .gt) →
      (indexedFrom k l).Pairwise (fun x y => leName x y = true) := by
  intro l
  induction l with
  | nil => intro k _; exact List.Pairwise.nil
  | cons s rest ih =>
    intro k h
    rcases List.pairwise_cons.mp h with ⟨hs, hrest⟩
    refine List.Pairwise.cons ?_ (ih hrest)
    intro p hp
    exact leName_of_not_gt (hs p.2 (mem_indexedFrom hp))

theorem pairwise_names_of_pairwise_leName :
    ∀ {il : List (Nat × String)},
      il.Pairwise (fun x y => leName x y = true) →
      (il.map Prod.snd).Pairwise (fun s t => cmpCharList s.data t.data ≠ .gt) := by
  intro il h
  rw [List.pairwise_map]
  exact h.imp fun hxy => not_gt_of_leName hxy

theorem map_getD_range {α : Type} (d : α) :
    ∀ (C : Nat) (l : List α), C ≤ l.length →
      (List.range C).map (fun j => l.getD j d) = l.take C := by
  intro C l hC
  apply List.ext_getElem
  · simp [hC]
  · intro i h1 h2
    have hiC : i < C := by simpa using h1
    have hil : i < l.length := lt_of_lt_of_le hiC hC
    simp [List.getD_eq_getElem l d hil, List.getElem?_eq_getElem hil]

theorem permuteRow_range {row : List SqlValue} {C : Nat} (hC : C ≤ row.length) :
    permuteRow (List.range C) row = some row := by
  unfold permuteRow
  rw [if_pos]
  · rw [map_getD_range (.Bool false) C row (by simpa using hC)]
    simp
  · simp only [List.length_range, List.all_eq_true, List.mem_range, decide_eq_true_eq,
      Bool.and_eq_true]
    exact ⟨by simpa using hC, fun j hj => by omega⟩

theorem permuteRow_length {perm : List Nat} {row out : List SqlValue}
    (h : permuteRow perm row = some out) :
    out.length = row.length ∧ perm.length ≤ row.length := by
  unfold permuteRow at h
  split_ifs at h with hc
  · simp only [Bool.and_eq_true, decide_eq_true_eq] at hc
    injection h with h'
    constructor
    · rw [← h']
      simp only [List.length_append, List.length_map, List.length_drop]
      omega
    · exact hc.1

theorem permuteRows_min_length {perm : List Nat} :
    ∀ {rows rows' : List (List SqlValue)}, permuteRows perm rows = some rows' →
      ∀ row' ∈ rows', perm.length ≤ row'.length := by
  intro rows
  induction rows with
  | nil =>
    intro rows' h row' hm
    simp only [permuteRows] at h
    injection h with h'
    rw [← h'] at hm
    cases hm
  | cons row rest ih =>
    intro rows' h row' hm
    simp only [permuteRows] at h
    cases hrow : permuteRow perm row with
    | none => rw [hrow] at h; cases h
    | some out =>
      rw [hrow] at h
      cases hrest : permuteRows perm rest with
      | none => rw [hrest] at h; cases h
      | some outs =>
        rw [hrest] at h
        injection h with h'
        rw [← h'] at hm
        rcases List.mem_cons.mp hm with rfl | hm'
        · have := permuteRow_length hrow
          omega
        · exact ih hrest row' hm'

theorem permuteRows_range {C : Nat} :
    ∀ {rows : List (List SqlValue)}, (∀ row ∈ rows, C ≤ row.length) →
      permuteRows (List.range C) rows = some rows := by
  intro rows
  induction rows with
  | nil => intro _; rfl
  | cons row rest ih =>
    intro h
    simp only [permuteRows]
    rw [permuteRow_range (by simpa using h row (List.mem_cons_self row rest)),
      ih fun q hq => h q (List.mem_cons_of_mem _ hq)]

/-- C8: each normalization is idempotent, with the partiality of the two
sorting transforms (their modelled panics) carried through `Option.bind`:
renumbering twice equals renumbering once, and whenever `sort_columns` or
`sort_rows` completes, running it again on its own output returns that output
unchanged. -/
theorem c8_normalization_idempotent :
    (∀ r : ResultSet, numberColumns (numberColumns r) = numberColumns r) ∧
    (∀ r : ResultSet, (sortColumns r).bind sortColumns = sortColumns r) ∧
    (∀ r : ResultSet, (sortRows r).bind sortRows = sortRows r) := by
  refine ⟨?_, ?_, ?_⟩
  · intro r
    simp [numberColumns]
  · intro r
    cases hs : sortColumns r with
    | none => rfl
    | some r' =>
      show sortColumns r' = some r'
      simp only [sortColumns] at hs
      cases hp : permuteRows ((stableSort leName (indexedFrom 0 r.columns)).map Prod.fst)
          r.rows with
      | none => rw [hp] at hs; cases hs
      | some rows' =>
        rw [hp] at hs
        injection hs with hs'
        have hsorted : (stableSort leName (indexedFrom 0 r.columns)).Pairwise
            (fun x y => leName x y = true) :=
          pairwise_stableSort (fun a _ b _ => leName_total a b)
            (fun a _ b _ c _ h1 h2 => leName_trans h1 h2)
        have hnames := pairwise_names_of_pairwise_leName hsorted
        have hfix := stableSort_of_pairwise (@pairwise_leName_indexedFrom _ 0 hnames)
        have hCle : ∀ row' ∈ rows',
            ((stableSort leName (indexedFrom 0 r.columns)).map Prod.snd).length ≤
              row'.length := by
          intro row' hm
          have := permuteRows_min_length hp row' hm
          simpa using this
        rw [← hs']
        simp only [sortColumns, hfix, indexedFrom_map_fst, indexedFrom_map_snd,
          ← List.range_eq_range']
        rw [permuteRows_range hCle]
  · intro r
    cases hs : sortRows r with
    | none => rfl
    | some r' =>
      show sortRows r' = some r'
      unfold sortRows at hs
      split_ifs at hs with hgate
      · injection hs with hs'
        have hperm := stableSort_perm leRow r.rows
        have hgate' : comparableRows (stableSort leRow r.rows) = true := by
          rw [comparableRows_perm hperm]
          exact hgate
        have hsorted : (stableSort leRow r.rows).Pairwise (fun a b => leRow a b = true) :=
          pairwise_stableSort (fun a _ b _ => leRow_total a b) (leRow_trans_of_gate hgate)
        rw [← hs']
        unfold sortRows
        rw [if_pos hgate']
        rw [stableSort_of_pairwise hsorted]

theorem forall₂_mem_right {α β : Type} {R : α → β → Prop} :
    ∀ {l : List α} {l' : List β}, List.Forall₂ R l l' → ∀ b ∈ l', ∃ a ∈ l, R a b := by
  intro l
  induction l with
  | nil =>
    intro l' h b hb
    cases h
    cases hb
  | cons x xs ih =>
    intro l' h b hb
    cases h with
    | cons hx hrest =>
      rcases List.mem_cons.mp hb with rfl | hb'
      · exact ⟨x, List.mem_cons_self x xs, hx⟩
      · obtain ⟨a, ha, hr⟩ := ih hrest b hb'
        exact ⟨a, List.mem_cons_of_mem x ha, hr⟩

theorem permuteRow_perm_of_arity {perm : List Nat} {row : List SqlValue}
    (hperm : perm.Perm (List.range row.length)) :
    ∃ out, permuteRow perm row = some out ∧ out.Perm row ∧ out.length = row.length := by
  have hplen : perm.length = row.length := by
    simpa using hperm.length_eq
  refine ⟨(perm.map fun j => row.getD j (.Bool false)) ++ row.drop perm.length, ?_, ?_, ?_⟩
  · unfold permuteRow
    rw [if_pos]
    simp only [Bool.and_eq_true, decide_eq_true_eq, List.all_eq_true]
    refine ⟨by omega, ?_⟩
    intro j hj
    have : j ∈ List.range row.length := hperm.mem_iff.mp hj
    simpa using this
  · rw [hplen, List.drop_length, List.append_nil]
    have hmap : (perm.map fun j => row.getD j (.Bool false)).Perm
        ((List.range row.length).map fun j => row.getD j (.Bool false)) :=
      hperm.map _
    rw [map_getD_range (.Bool false) row.length row (le_refl _), List.take_length] at hmap
    exact hmap
  · rw [hplen, List.drop_length, List.append_nil]
    simp [hplen]

theorem permuteRows_arity {perm : List Nat} {C : Nat} (hperm : perm.Perm (List.range C)) :
    ∀ {rows : List (List SqlValue)}, (∀ row ∈ rows, row.length = C) →
      ∃ rows', permuteRows perm rows = some rows' ∧
        List.Forall₂ (fun row out => out.Perm row ∧ out.length = row.length) rows rows' := by
  intro rows
  induction rows with
  | nil => intro _; exact ⟨[], rfl, List.Forall₂.nil⟩
  | cons row rest ih =>
    intro h
    have hrow : row.length = C := h row (List.mem_cons_self row rest)
    obtain ⟨out, hout, houtp, houtl⟩ := @permuteRow_perm_of_arity perm row (hrow ▸ hperm)
    obtain ⟨outs, houts, hf⟩ := ih fun q hq => h q (List.mem_cons_of_mem _ hq)
    refine ⟨out :: outs, ?_, List.Forall₂.cons ⟨houtp, houtl⟩ hf⟩
    simp only [permuteRows]
    rw [hout, houts]

/-- C10: when every row has exactly as many cells as there are columns,
`sort_columns` completes without failure, preserves the arity invariant, and
permutes each row's cells (preserving the multiset of cells of each row); and
on a result set in which a row is shorter than the column list, the index
permutation reads or writes out of bounds and `sort_columns` fails — the
modelled panic. -/
theorem c10_sort_columns_arity :
    (∀ r : ResultSet, (∀ row ∈ r.rows, row.length = r.columns.length) →
      ∃ r', sortColumns r = some r' ∧ r'.columns.length = r.columns.length ∧
        (∀ row' ∈ r'.rows, row'.length = r'.columns.length) ∧
        List.Forall₂ (fun row row' => row'.Perm row) r.rows r'.rows) ∧
    sortColumns { columns := ["a", "b"], rows := [[.Int 1]] } = none := by
  constructor
  · intro r harity
    have hip : (stableSort leName (indexedFrom 0 r.columns)).Perm (indexedFrom 0 r.columns) :=
      stableSort_perm leName _
    have hpermfst : ((stableSort leName (indexedFrom 0 r.columns)).map Prod.fst).Perm
        (List.range r.columns.length) := by
      have hm := hip.map Prod.fst
      rw [indexedFrom_map_fst, ← List.range_eq_range'] at hm
      exact hm
    obtain ⟨rows', hrows', hf⟩ := permuteRows_arity hpermfst harity
    have hlensnd : ((stableSort leName (indexedFrom 0 r.columns)).map Prod.snd).length =
        r.columns.length := by
      have h1 : (stableSort leName (indexedFrom 0 r.columns)).length =
          (indexedFrom 0 r.columns).length := hip.length_eq
      simp [h1, indexedFrom_length]
    refine ⟨{ columns := (stableSort leName (indexedFrom 0 r.columns)).map Prod.snd,
              rows := rows' }, ?_, hlensnd, ?_, ?_⟩
    · simp only [sortColumns]
      rw [hrows']
    · intro row' hm
      obtain ⟨row, hrow, _, hl⟩ := forall₂_mem_right hf row' hm
      rw [hl, harity row hrow, hlensnd]
    · exact List.Forall₂.imp (fun a b h => h.1) hf
  · decide

/-- C10 witness: the specification's own column-sort scenario — columns
`["b","a"]`, rows `[[1,2],[3,4]]` — satisfies the arity invariant, and the
theorem applies with the hypothesis discharged by computation. -/
theorem c10_sort_columns_arity_witness :
    ∃ r', sortColumns { columns := ["b", "a"], rows := [[.Int 1, .Int 2], [.Int 3, .Int 4]] } =
        some r' ∧
      r'.columns.length =
        (ResultSet.mk ["b", "a"] [[.Int 1, .Int 2], [.Int 3, .Int 4]]).columns.length ∧
      (∀ row' ∈ r'.rows, row'.length = r'.columns.length) ∧
      List.Forall₂ (fun row row' => row'.Perm row)
        [[SqlValue.Int 1, SqlValue.Int 2], [SqlValue.Int 3, SqlValue.Int 4]] r'.rows :=
  c10_sort_columns_arity.1 { columns := ["b", "a"], rows := [[.Int 1, .Int 2], [.Int 3, .Int 4]] }
    (by decide)

theorem provInv_init (n : Nat) : ProvInv n provInit := by
  refine ⟨by simp [provInit], by simp [provInit], ?_, ?_, ?_, ?_⟩ <;>
    intro i hi h <;>
    rcases h with h | h | h <;> simp [provInit] at h

theorem provInv_step {n : Nat} {s s' : ProvState} (hs : ProvInv n s)
    (hstep : ProvStep n s s') : ProvInv n s' := by
  obtain ⟨h1, h2, h3, h4, h5, h6⟩ := hs
  cases hstep with
  | fastHit i hi hpc hdb =>
    refine ⟨h1, h2, ?_, ?_, ?_, ?_⟩ <;> intro j hj hcond <;> dsimp only at hcond ⊢
    · by_cases hij : j = i
      · subst hij
        rw [Function.update_same] at hcond
        rcases hcond with h | h | h <;> cases h
      · rw [Function.update_noteq hij] at hcond
        exact h3 j hj hcond
    · by_cases hij : j = i
      · subst hij; rw [Function.update_same] at hcond; cases hcond
      · rw [Function.update_noteq hij] at hcond; exact h4 j hj hcond
    · by_cases hij : j = i
      · subst hij; rw [Function.update_same] at hcond; cases hcond
      · rw [Function.update_noteq hij] at hcond; exact h5 j hj hcond
    · by_cases hij : j = i
      · exact h2.mp hdb
      · rw [Function.update_noteq hij] at hcond; exact h6 j hj hcond
  | fastMiss i hi hpc hdb =>
    refine ⟨h1, h2, ?_, ?_, ?_, ?_⟩ <;> intro j hj hcond <;> dsimp only at hcond ⊢
    · by_cases hij : j = i
      · subst hij
        rw [Function.update_same] at hcond
        rcases hcond with h | h | h <;> cases h
      · rw [Function.update_noteq hij] at hcond
        exact h3 j hj hcond
    · by_cases hij : j = i
      · subst hij; rw [Function.update_same] at hcond; cases hcond
      · rw [Function.update_noteq hij] at hcond; exact h4 j hj hcond
    · by_cases hij : j = i
      · subst hij; rw [Function.update_same] at hcond; cases hcond
      · rw [Function.update_noteq hij] at hcond; exact h5 j hj hcond
    · by_cases hij : j = i
      · subst hij; rw [Function.update_same] at hcond; cases hcond
      · rw [Function.update_noteq hij] at hcond; exact h6 j hj hcond
  | acquire i hi hpc hlock =>
    refine ⟨h1, h2, ?_, ?_, ?_, ?_⟩ <;> intro j hj hcond <;> dsimp only at hcond ⊢
    · by_cases hij : j = i
      · subst hij; rfl
      · rw [Function.update_noteq hij] at hcond
        exact absurd (h3 j hj hcond) (by rw [hlock]; intro h; cases h)
    · by_cases hij : j = i
      · subst hij; rw [Function.update_same] at hcond; cases hcond
      · rw [Function.update_noteq hij] at hcond; exact h4 j hj hcond
    · by_cases hij : j = i
      · subst hij; rw [Function.update_same] at hcond; cases hcond
      · rw [Function.update_noteq hij] at hcond; exact h5 j hj hcond
    · by_cases hij : j = i
      · subst hij; rw [Function.update_same] at hcond; cases hcond
      · rw [Function.update_noteq hij] at hcond; exact h6 j hj hcond
  | recheckHit i hi hpc hdb =>
    refine ⟨h1, h2, ?_, ?_, ?_, ?_⟩ <;> intro j hj hcond <;> dsimp only at hcond ⊢
    · by_cases hij : j = i
      · subst hij; exact h3 j hj (Or.inl hpc)
      · rw [Function.update_noteq hij] at hcond; exact h3 j hj hcond
    · by_cases hij : j = i
      · subst hij; rw [Function.update_same] at hcond; cases hcond
      · rw [Function.update_noteq hij] at hcond; exact h4 j hj hcond
    · by_cases hij : j = i
      · exact hdb
      · rw [Function.update_noteq hij] at hcond; exact h5 j hj hcond
    · by_cases hij : j = i
      · subst hij; rw [Function.update_same] at hcond; cases hcond
      · rw [Function.update_noteq hij] at hcond; exact h6 j hj hcond
  | recheckMiss i hi hpc hdb =>
    refine ⟨h1, h2, ?_, ?_, ?_, ?_⟩ <;> intro j hj hcond <;> dsimp only at hcond ⊢
    · by_cases hij : j = i
      · subst hij; exact h3 j hj (Or.inl hpc)
      · rw [Function.update_noteq hij] at hcond; exact h3 j hj hcond
    · by_cases hij : j = i
      · exact hdb
      · rw [Function.update_noteq hij] at hcond; exact h4 j hj hcond
    · by_cases hij : j = i
      · subst hij; rw [Function.update_same] at hcond; cases hcond
      · rw [Function.update_noteq hij] at hcond; exact h5 j hj hcond
    · by_cases hij : j = i
      · subst hij; rw [Function.update_same] at hcond; cases hcond
      · rw [Function.update_noteq hij] at hcond; exact h6 j hj hcond
  | create i hi hpc =>
    have hdb0 : s.dbExists = false := h4 i hi hpc
    have hc0 : s.creates = 0 := by
      have : ¬s.creates = 1 := fun hc => by rw [h2.mpr hc] at hdb0; cases hdb0
      omega
    refine ⟨by dsimp only; omega, by dsimp only; simp [hc0], ?_, ?_, ?_, ?_⟩ <;>
      intro j hj hcond <;> dsimp only at hcond ⊢
    · by_cases hij : j = i
      · subst hij; exact h3 j hj (Or.inr (Or.inl hpc))
      · rw [Function.update_noteq hij] at hcond; exact h3 j hj hcond
    · by_cases hij : j = i
      · subst hij; rw [Function.update_same] at hcond; cases hcond
      · rw [Function.update_noteq hij] at hcond
        have hlockj := h3 j hj (Or.inr (Or.inl hcond))
        have hlocki := h3 i hi (Or.inr (Or.inl hpc))
        rw [hlocki] at hlockj
        injection hlockj with he
        exact absurd he.symm hij
    · by_cases hij : j = i
      · subst hij; rw [Function.update_same] at hcond; cases hcond
      · rw [Function.update_noteq hij] at hcond
        have := h6 j hj hcond
        omega
  | release i hi hpc =>
    refine ⟨h1, h2, ?_, ?_, ?_, ?_⟩ <;> intro j hj hcond <;> dsimp only at hcond ⊢
    · by_cases hij : j = i
      · subst hij
        rw [Function.update_same] at hcond
        rcases hcond with h | h | h <;> cases h
      · rw [Function.update_noteq hij] at hcond
        have hlockj := h3 j hj hcond
        have hlocki := h3 i hi (Or.inr (Or.inr hpc))
        rw [hlocki] at hlockj
        injection hlockj with he
        exact absurd he.symm hij
    · by_cases hij : j = i
      · subst hij; rw [Function.update_same] at hcond; cases hcond
      · rw [Function.update_noteq hij] at hcond
        exact h4 j hj hcond
    · by_cases hij : j = i
      · subst hij; rw [Function.update_same] at hcond; cases hcond
      · rw [Function.update_noteq hij] at hcond; exact h5 j hj hcond
    · by_cases hij : j = i
      · exact h2.mp (h5 i hi hpc)
      · rw [Function.update_noteq hij] at hcond; exact h6 j hj hcond

theorem provInv_reach {n : Nat} {s : ProvState} (h : ProvReach n provInit s) : ProvInv n s := by
  induction h with
  | refl => exact provInv_init n
  | tail hsteps hstep ih => exact provInv_step ih hstep

/-- C9: for any number `n` of concurrent provisioning attempts for one
identity, in every reachable state at most one `CREATE DATABASE` has been
issued and at most one task is inside the creation critical section; and when
all tasks have completed (and there is at least one), the creation was issued
exactly once. -/
theorem c9_provisioning_exactly_once :
    ∀ (n : Nat) (s : ProvState), ProvReach n provInit s →
      s.creates ≤ 1 ∧
      (∀ i j, i < n → j < n → critPC (s.tasks i) → critPC (s.tasks j) → i = j) ∧
      (1 ≤ n → (∀ i, i < n → s.tasks i = .done) → s.creates = 1) := by
  intro n s hreach
  obtain ⟨h1, h2, h3, _, _, h6⟩ := provInv_reach hreach
  refine ⟨h1, ?_, ?_⟩
  · intro i j hi hj hci hcj
    have hli := h3 i hi hci
    have hlj := h3 j hj hcj
    rw [hli] at hlj
    injection hlj
  · intro hn hdone
    exact h6 0 (by omega) (hdone 0 (by omega))

/-- C9 witness: a concrete two-task interleaving — task 0 misses the fast
path, acquires the mutex, re-checks, creates, releases; task 1 then hits the
fast path — reaches a state where both tasks are done and exactly one
creation was issued. -/
theorem c9_provisioning_exactly_once_witness : provS6.creates = 1 := by
  have hreach : ProvReach 2 provInit provS6 := by
    have r1 : ProvReach 2 provInit provS1 :=
      Relation.ReflTransGen.single (ProvStep.fastMiss provInit 0 (by omega) rfl rfl)
    have r2 : ProvReach 2 provInit provS2 :=
      r1.tail (ProvStep.acquire provS1 0 (by omega) rfl rfl)
    have r3 : ProvReach 2 provInit provS3 :=
      r2.tail (ProvStep.recheckMiss provS2 0 (by omega) rfl rfl)
    have r4 : ProvReach 2 provInit provS4 :=
      r3.tail (ProvStep.create provS3 0 (by omega) rfl)
    have r5 : ProvReach 2 provInit provS5 :=
      r4.tail (ProvStep.release provS4 0 (by omega) rfl)
    exact r5.tail (ProvStep.fastHit provS5 1 (by omega) rfl rfl)
  exact (c9_provisioning_exactly_once 2 provS6 hreach).2.2 (by omega)
    (by intro i hi; interval_cases i <;> rfl)
